import Mathlib

/-!
Verification of the alloy-mcp documentation server core: the section
parser, the relevance scorer and the three query operations
(`lookup_type`, `search_resources`, `get_resource`) from `src/tools.rs`,
plus the protocol-boundary `read_resource` from `src/server.rs`.

Rust strings are modelled as `List Char`; `to_lowercase` as a
character-wise lowercase map; `str::contains` as substring containment;
`str::matches(pat).count()` as left-to-right counting of non-overlapping
occurrences.  `HashMap<String, StaticResource>` is modelled as the list
of its entries in iteration order (`values()` order), with lookups by
key equality; the document URIs are unique (spec §3 invariant), which
theorems assume where a map lookup is modelled by a list search.
Rust's stable `sort_by` is modelled by Mathlib's `List.insertionSort`,
which is stable for the comparator's induced relation.
-/

namespace AlloyMcp

/-- Rust `String` / `&str`, modelled as its list of characters. -/
abbrev Str := List Char

/-- The backtick character (Rust `'\x60'`). -/
def backtick : Char := Char.ofNat 96

/-- Model of Rust `str::to_lowercase`: character-wise lowercasing. -/
def lowerStr (s : Str) : Str := s.map Char.toLower

/-- Model of Rust `str::contains(&str)`: `pat` occurs as a contiguous
substring of `hay` (the empty pattern is contained in every string). -/
def containsSub : Str → Str → Bool
  | [], pat => pat.isEmpty
  | c :: t, pat => pat.isPrefixOf (c :: t) || containsSub t pat

/-- Fuel-indexed helper for `countMatches`; the fuel only bounds the
recursion depth and is always sufficient when set to `hay.length`. -/
def countMatchesAux : Nat → Str → Str → Nat
  | 0, _, _ => 0
  | _ + 1, [], _ => 0
  | fuel + 1, c :: t, pat =>
    if pat.isPrefixOf (c :: t) && 0 < pat.length then
      countMatchesAux fuel ((c :: t).drop pat.length) pat + 1
    else
      countMatchesAux fuel t pat

/-- Model of Rust `hay.matches(pat).count()` for a non-empty pattern:
the number of non-overlapping occurrences of `pat` in `hay`, scanning
left to right (the single call site in `score_section` is unreachable
with an empty pattern, since an empty query already matches the
heading). -/
def countMatches (hay pat : Str) : Nat := countMatchesAux hay.length hay pat

/-- `Section` from `src/tools.rs`: a section extracted from a resource
markdown file. -/
structure Section where
  uri : Str
  resource_name : Str
  heading : Str
  content : Str
deriving DecidableEq, Repr

/-- `score_section` from `src/tools.rs` lines 73–97: score how well a
section matches a query; higher is better, 0 for no match. -/
def score_section (s : Section) (query : Str) : Nat :=
  let query_lower := lowerStr query
  let heading_lower := lowerStr s.heading
  let content_lower := lowerStr s.content
  if containsSub heading_lower query_lower then 100
  else if containsSub content_lower (backtick :: query_lower ++ [backtick]) then 80
  else if containsSub content_lower query_lower then
    50 + min (countMatches content_lower query_lower) 30
  else 0

/-- Splitting a string at every newline character (Rust
`str::split('\n')`); always returns at least one (possibly empty)
piece. -/
def splitNL : Str → List Str
  | [] => [[]]
  | c :: t =>
    if c = '\n' then [] :: splitNL t
    else
      match splitNL t with
      | [] => [[c]]
      | l :: ls => (c :: l) :: ls

/-- Strip one trailing carriage return, as Rust `str::lines` does on
each line. -/
def stripCR (l : Str) : Str := if l.getLast? = some '\r' then l.dropLast else l

/-- Model of Rust `str::lines()`: split on `'\n'`, drop the final empty
piece produced by a trailing newline (so the empty string has no
lines), and strip one trailing `'\r'` from each line. -/
def rustLines (s : Str) : List Str :=
  let parts := splitNL s
  let parts := if parts.getLast? = some [] then parts.dropLast else parts
  parts.map stripCR

/-- Model of Rust `str::trim()`: remove leading and trailing whitespace
characters. -/
def rustTrim (s : Str) : Str :=
  ((s.dropWhile Char.isWhitespace).reverse.dropWhile Char.isWhitespace).reverse

/-- Model of Rust `Vec<&str>::join("\n")`. -/
def joinNL : List Str → Str
  | [] => []
  | [l] => l
  | l :: ls => l ++ '\n' :: joinNL ls

/-- The level-2 heading marker `"## "` that starts a new section. -/
def h2marker : Str := ['#', '#', ' ']

/-- The flush step of `parse_sections`: build the completed `Section`
from the accumulated heading and lines, substituting the `"(intro)"`
sentinel for an empty heading and discarding the section when its
trimmed body text is empty. -/
def mkSection (uri name heading : Str) (lines : List Str) : List Section :=
  let h := if heading.isEmpty then "(intro)".toList else heading
  let text := rustTrim (joinNL lines)
  if text.isEmpty then [] else [⟨uri, name, h, text⟩]

/-- The line-scanning loop of `parse_sections` (`src/tools.rs` lines
23–66), with the current heading and accumulated lines as explicit
state.  A line starting with `"## "` flushes the previous section
(when there is one) and starts a new one containing the heading line
itself; at end of input the remaining lines are flushed. -/
def parseLoop (uri name : Str) : List Str → Str → List Str → List Section
  | [], curHeading, curLines =>
    if curLines.isEmpty then [] else mkSection uri name curHeading curLines
  | line :: rest, curHeading, curLines =>
    if h2marker.isPrefixOf line then
      (if !curHeading.isEmpty || !curLines.isEmpty then
        mkSection uri name curHeading curLines
      else []) ++ parseLoop uri name rest line [line]
    else
      parseLoop uri name rest curHeading (curLines ++ [line])

/-- `parse_sections` from `src/tools.rs` lines 18–69: parse a
resource's markdown content into sections split on `"## "` headings. -/
def parse_sections (uri name content : Str) : List Section :=
  parseLoop uri name (rustLines content) [] []

/-- `StaticResource` from `src/resources.rs`. -/
structure StaticResource where
  uri : Str
  name : Str
  description : Str
  mime_type : Str
  content : Str
deriving DecidableEq, Repr

/-- The server state (`AlloyMcpServer` from `src/server.rs`): the
static resources, modelled as the list of map entries in the
`HashMap`'s `values()` iteration order. -/
structure AlloyMcpServer where
  resources : List StaticResource
deriving DecidableEq, Repr

/-- `all_sections` from `src/tools.rs` lines 101–111: all sections of
all resources, in resource iteration order. -/
def all_sections (srv : AlloyMcpServer) : List Section :=
  srv.resources.flatMap fun r => parse_sections r.uri r.name r.content

/-- Decimal rendering of a score for the output text. -/
def natStr (n : Nat) : Str := (Nat.repr n).toList

/-- Rust `heading.trim_start_matches('#')`. -/
def trimStartHashes (s : Str) : Str := s.dropWhile (fun c => c = '#')

/-- Model of `scored.sort_by(|a, b| b.0.cmp(&a.0))`: a stable sort of
the scored sections, descending by score.  Rust's `sort_by` is stable,
so it is modelled by insertion sort for the relation "left score ≥
right score". -/
def sortByScoreDesc (l : List (Nat × Section)) : List (Nat × Section) :=
  l.insertionSort (fun a b => b.1 ≤ a.1)

/-- The scored-and-filtered list built by `lookup_type` (`src/tools.rs`
lines 163–169): each section with a positive `score_section` score,
paired with that score, in corpus order. -/
def lookup_scored (srv : AlloyMcpServer) (type_name : Str) : List (Nat × Section) :=
  (all_sections srv).filterMap fun s =>
    let score := score_section s type_name
    if score > 0 then some (score, s) else none

/-- The ranked result list of `lookup_type`: sorted descending by
score, truncated to the top 3. -/
def lookup_results (srv : AlloyMcpServer) (type_name : Str) : List (Nat × Section) :=
  (sortByScoreDesc (lookup_scored srv type_name)).take 3

/-- The fallback message of `lookup_type` when nothing matched:
enumerates every resource's URI and name. -/
def lookupNoMatchMsg (srv : AlloyMcpServer) (type_name : Str) : Str :=
  let uris := srv.resources.map fun r =>
    "  - ".toList ++ r.uri ++ " (".toList ++ r.name ++ ")".toList
  "No documentation found for '".toList ++ type_name
    ++ "'. Available resources:\n".toList ++ joinNL uris

/-- One rendered entry of the `lookup_type` output (`src/tools.rs`
lines 188–195). -/
def renderLookupEntry (score : Nat) (s : Section) : Str :=
  "---\n**".toList ++ rustTrim (trimStartHashes s.heading) ++ "** — ".toList
    ++ s.resource_name ++ " (relevance: ".toList ++ natStr score ++ ")\nURI: ".toList
    ++ s.uri ++ "\n\n".toList ++ s.content ++ "\n\n".toList

/-- `lookup_type` from `src/tools.rs` lines 158–199. -/
def lookup_type (srv : AlloyMcpServer) (type_name : Str) : Str :=
  let scored := lookup_results srv type_name
  if scored.isEmpty then lookupNoMatchMsg srv type_name
  else
    "# Results for '".toList ++ type_name ++ "'\n\n".toList
      ++ (scored.map fun p => renderLookupEntry p.1 p.2).flatten

/-- Model of Rust `str::split_whitespace()`: the maximal non-empty
runs of non-whitespace characters. -/
def splitWhitespace (s : Str) : List Str :=
  (s.splitOnP Char.isWhitespace).filter fun w => !w.isEmpty

/-- The per-section total score of `search_resources` (`src/tools.rs`
lines 222–236): the `score_section` base score for the whole query,
plus 10 per query term contained in the lower-cased heading and 5 per
query term contained in the lower-cased body, folded over the terms in
order exactly as the source does. -/
def search_total_score (terms : List Str) (query : Str) (s : Section) : Nat :=
  let content_lower := lowerStr s.content
  let heading_lower := lowerStr s.heading
  terms.foldl
    (fun acc term =>
      let acc := if containsSub heading_lower term then acc + 10 else acc
      if containsSub content_lower term then acc + 5 else acc)
    (score_section s query)

/-- The whitespace-separated lower-cased terms of a query. -/
def queryTerms (query : Str) : List Str := splitWhitespace (lowerStr query)

/-- The scored-and-filtered list built by `search_resources`: each
section with positive total score, paired with that score, in corpus
order. -/
def search_scored (srv : AlloyMcpServer) (query : Str) : List (Nat × Section) :=
  (all_sections srv).filterMap fun s =>
    let total := search_total_score (queryTerms query) query s
    if total > 0 then some (total, s) else none

/-- The ranked result list of `search_resources`: sorted descending by
total score, truncated to `max` entries. -/
def search_results (srv : AlloyMcpServer) (query : Str) (max : Nat) : List (Nat × Section) :=
  (sortByScoreDesc (search_scored srv query)).take max

/-- The fallback message of `search_resources` when nothing matched:
enumerates every resource's URI and description. -/
def searchNoResultsMsg (srv : AlloyMcpServer) (query : Str) : Str :=
  let uris := srv.resources.map fun r =>
    "  - ".toList ++ r.uri ++ " — ".toList ++ r.description
  "No results for '".toList ++ query ++ "'. Available resources:\n".toList ++ joinNL uris

/-- The body preview of one search result (`src/tools.rs` lines
263–274): the full body when it has at most 40 lines, otherwise the
first 40 lines plus a trailer with the number of remaining lines and
the resource URI. -/
def searchPreview (s : Section) : Str :=
  let lines := rustLines s.content
  if lines.length > 40 then
    joinNL (lines.take 40) ++ "\n\n... (".toList ++ natStr (lines.length - 40)
      ++ " more lines, fetch full resource: ".toList ++ s.uri ++ ")".toList
  else s.content

/-- One rendered entry of the `search_resources` output (`src/tools.rs`
lines 276–282); the score is not shown. -/
def renderSearchEntry (s : Section) : Str :=
  "---\n**".toList ++ rustTrim (trimStartHashes s.heading) ++ "** — ".toList
    ++ s.resource_name ++ "\nURI: ".toList ++ s.uri ++ "\n\n".toList
    ++ searchPreview s ++ "\n\n".toList

/-- `search_resources` from `src/tools.rs` lines 206–286; `max_results`
defaults to 5 when absent. -/
def search_resources (srv : AlloyMcpServer) (query : Str) (max_results : Option Nat) : Str :=
  let max := max_results.getD 5
  let scored := search_results srv query max
  if scored.isEmpty then searchNoResultsMsg srv query
  else
    "# Search results for '".toList ++ query ++ "'\n\n".toList
      ++ (scored.map fun p => renderSearchEntry p.2).flatten

/-- One rendered catalog entry of the `uri = "list"` branch of
`get_resource` (`src/tools.rs` line 301). -/
def renderCatalogEntry (r : StaticResource) : Str :=
  "- **".toList ++ r.name ++ "**\n  URI: ".toList ++ [backtick] ++ r.uri
    ++ [backtick] ++ "\n  ".toList ++ r.description

/-- Model of `Vec<String>::sort()`: a stable sort in the lexicographic
(byte/code-point) order on strings, modelled by insertion sort for the
`List Char` lexicographic order. -/
def sortStrs (l : List Str) : List Str := l.insertionSort (· ≤ ·)

/-- Model of Rust `"\n\n".join` style concatenation used for the
catalog: entries separated by blank lines. -/
def joinBlank : List Str → Str
  | [] => []
  | [l] => l
  | l :: ls => l ++ '\n' :: '\n' :: joinBlank ls

/-- The catalog returned by `get_resource` for the sentinel `"list"`:
all rendered entries, sorted, under a header. -/
def catalogMsg (srv : AlloyMcpServer) : Str :=
  "# Available Resources\n\n".toList
    ++ joinBlank (sortStrs (srv.resources.map renderCatalogEntry))

/-- The not-found message of `get_resource`: enumerates every
resource's URI and name. -/
def resourceNotFoundMsg (srv : AlloyMcpServer) (uri : Str) : Str :=
  let uris := srv.resources.map fun r => "  ".toList ++ r.uri ++ " — ".toList ++ r.name
  "Resource not found: '".toList ++ uri ++ "'\n\nAvailable URIs:\n".toList ++ joinNL uris

/-- `get_resource` from `src/tools.rs` lines 293–322: the sentinel
`"list"` returns the sorted catalog; a known URI returns that
resource's raw content verbatim; anything else returns the not-found
message.  The `HashMap` lookup is modelled by a search for the first
entry with the requested URI. -/
def get_resource (srv : AlloyMcpServer) (uri : Str) : Str :=
  if uri = "list".toList then catalogMsg srv
  else
    match srv.resources.find? (fun r => r.uri == uri) with
    | some resource => resource.content
    | none => resourceNotFoundMsg srv uri

/-- `ResourceContents::TextResourceContents` as used by
`read_resource` in `src/server.rs`. -/
structure ResourceContents where
  uri : Str
  mime_type : Str
  text : Str
deriving DecidableEq, Repr

/-- `ReadResourceResult` from the protocol layer. -/
structure ReadRes where
  contents : List ResourceContents
deriving DecidableEq, Repr

/-- `ErrorData` of the protocol layer: a JSON-RPC error code and a
message.  `ErrorData::resource_not_found` uses the MCP
`RESOURCE_NOT_FOUND` code −32002. -/
structure ErrorData where
  code : Int
  message : Str
deriving DecidableEq, Repr

/-- `read_resource` from `src/server.rs` lines 93–114: the structured
single-resource read.  A known URI yields the resource's text content
(with its URI and MIME type); an unknown URI yields a distinguishable
`resource_not_found` error value.  The server state is not modified
(the handler only reads `self.resources`). -/
def read_resource (srv : AlloyMcpServer) (uri : Str) : Except ErrorData ReadRes :=
  match srv.resources.find? (fun r => r.uri == uri) with
  | some resource => .ok ⟨[⟨resource.uri, resource.mime_type, resource.content⟩]⟩
  | none => .error ⟨-32002, "Resource not found: ".toList ++ uri⟩

/-- The non-whitespace characters of a string, in order; the invariant
preserved by section splitting ("equivalent modulo discarded
whitespace"). -/
def nonWs (s : Str) : Str := s.filter fun c => !c.isWhitespace

/-- A small concrete resource used to evaluate the theorems. -/
def demoRes1 : StaticResource :=
  ⟨"alloy://a/one".toList, "One".toList, "First doc".toList, "text/markdown".toList,
    "intro\n## Alpha\nsome foo body\n".toList⟩

/-- A second small concrete resource. -/
def demoRes2 : StaticResource :=
  ⟨"alloy://b/two".toList, "Two".toList, "Second doc".toList, "text/markdown".toList,
    "## Beta\nbar stuff\n".toList⟩

/-- A concrete two-resource server used to evaluate the theorems. -/
def demoServer : AlloyMcpServer := ⟨[demoRes1, demoRes2]⟩

/-- The `"## Alpha"` section of `demoRes1`, as `parse_sections`
produces it. -/
def demoAlphaSec : Section :=
  ⟨"alloy://a/one".toList, "One".toList, "## Alpha".toList, "## Alpha\nsome foo body".toList⟩

/-- A concrete document whose two consecutive heading lines exercise
the consecutive-headings edge case; the first heading line carries a
trailing space. -/
def demoConsecDoc : Str := "## A \n## B\ntail".toList

/-- A concrete section whose body has 41 lines, exercising the search
preview truncation. -/
def demoLongSec : Section :=
  ⟨"alloy://a/one".toList, "One".toList, "## L".toList, joinNL (List.replicate 41 ['x'])⟩

/-! ### Whitespace, trimming and line-joining lemmas -/

theorem nonWs_append (a b : Str) : nonWs (a ++ b) = nonWs a ++ nonWs b :=
  List.filter_append ..

theorem nonWs_dropWhile_ws (s : Str) :
    nonWs (s.dropWhile Char.isWhitespace) = nonWs s := by
  induction s with
  | nil => rfl
  | cons c t ih =>
    by_cases h : c.isWhitespace
    · simpa [nonWs, List.dropWhile_cons, h] using ih
    · simp [nonWs, List.dropWhile_cons, h]

theorem nonWs_reverse (s : Str) : nonWs s.reverse = (nonWs s).reverse :=
  List.filter_reverse ..

theorem nonWs_rustTrim (s : Str) : nonWs (rustTrim s) = nonWs s := by
  unfold rustTrim
  rw [nonWs_reverse, nonWs_dropWhile_ws, nonWs_reverse, List.reverse_reverse,
    nonWs_dropWhile_ws]

theorem rustTrim_eq_nil_iff (s : Str) : rustTrim s = [] ↔ nonWs s = [] := by
  constructor
  · intro h
    have := nonWs_rustTrim s
    rw [h] at this
    exact this.symm
  · intro h
    have hall : ∀ c ∈ s, c.isWhitespace := by
      intro c hc
      have := (List.filter_eq_nil_iff.mp h) c hc
      simpa using this
    unfold rustTrim
    rw [List.reverse_eq_nil_iff, List.dropWhile_eq_nil_iff]
    intro c hc
    exact hall c ((List.dropWhile_sublist _).subset (List.mem_reverse.mp hc))

theorem nonWs_joinNL (ls : List Str) :
    nonWs (joinNL ls) = (ls.map nonWs).flatten := by
  induction ls with
  | nil => rfl
  | cons l ls ih =>
    cases ls with
    | nil => simp [joinNL, nonWs]
    | cons l' ls' =>
      have hnl : ('\n').isWhitespace = true := by decide
      simp only [joinNL, List.map_cons, List.flatten_cons] at ih ⊢
      rw [nonWs_append]
      simp only [nonWs, List.filter_cons, hnl] at ih ⊢
      simp only [Bool.not_true, Bool.false_eq_true, if_false, List.append_assoc] at ih ⊢
      rw [ih]

theorem splitNL_ne_nil (s : Str) : splitNL s ≠ [] := by
  cases s with
  | nil => simp [splitNL]
  | cons c t =>
    by_cases h : c = '\n'
    · simp [splitNL, h]
    · simp only [splitNL, h, if_false]
      cases splitNL t <;> simp

theorem joinNL_splitNL (s : Str) : joinNL (splitNL s) = s := by
  induction s with
  | nil => rfl
  | cons c t ih =>
    by_cases h : c = '\n'
    · subst h
      simp only [splitNL, if_pos rfl]
      obtain ⟨l, ls, hls⟩ : ∃ l ls, splitNL t = l :: ls := by
        cases hq : splitNL t with
        | nil => exact absurd hq (splitNL_ne_nil t)
        | cons l ls => exact ⟨l, ls, rfl⟩
      rw [hls]
      rw [hls] at ih
      simpa [joinNL] using ih
    · simp only [splitNL, h, if_false]
      obtain ⟨l, ls, hls⟩ : ∃ l ls, splitNL t = l :: ls := by
        cases hq : splitNL t with
        | nil => exact absurd hq (splitNL_ne_nil t)
        | cons l ls => exact ⟨l, ls, rfl⟩
      rw [hls]
      rw [hls] at ih
      cases ls with
      | nil => simpa [joinNL] using congrArg (c :: ·) ih
      | cons l₂ ls₂ => simpa [joinNL] using congrArg (c :: ·) ih

theorem nonWs_stripCR (l : Str) : nonWs (stripCR l) = nonWs l := by
  unfold stripCR
  by_cases h : l.getLast? = some '\r'
  · have hne : l ≠ [] := by
      intro he
      rw [he] at h
      simp at h
    have hdec : l.dropLast ++ [l.getLast hne] = l := List.dropLast_append_getLast hne
    have hlast : l.getLast hne = '\r' := by
      have := List.getLast?_eq_getLast l hne
      rw [this] at h
      exact (Option.some_injective _ h.symm).symm
    rw [if_pos h]
    conv_rhs => rw [← hdec]
    rw [nonWs_append, hlast]
    simp [nonWs]
  · rw [if_neg h]

theorem nonWs_flatten_rustLines (s : Str) :
    ((rustLines s).map nonWs).flatten = nonWs s := by
  unfold rustLines
  have hmapcr : ∀ X : List Str, (X.map stripCR).map nonWs = X.map nonWs := by
    intro X
    rw [List.map_map]
    exact List.map_congr_left fun l _ => nonWs_stripCR l
  have hbase : ((splitNL s).map nonWs).flatten = nonWs s := by
    rw [← nonWs_joinNL, joinNL_splitNL]
  by_cases h : (splitNL s).getLast? = some []
  · simp only [h, if_pos rfl]
    rw [hmapcr]
    have hne : splitNL s ≠ [] := splitNL_ne_nil s
    have hdec : (splitNL s).dropLast ++ [(splitNL s).getLast hne] = splitNL s :=
      List.dropLast_append_getLast hne
    have hlast : (splitNL s).getLast hne = [] := by
      have := List.getLast?_eq_getLast (splitNL s) hne
      rw [this] at h
      exact (Option.some_injective _ h.symm).symm
    calc ((splitNL s).dropLast.map nonWs).flatten
        = (((splitNL s).dropLast.map nonWs).flatten) ++ ([] : Str) := by simp
      _ = (((splitNL s).dropLast ++ [(splitNL s).getLast hne]).map nonWs).flatten := by
          rw [List.map_append, List.flatten_append, hlast]
          simp [nonWs]
      _ = nonWs s := by rw [hdec, hbase]
  · simp only [if_neg h]
    rw [hmapcr, hbase]

/-! ### Parser lemmas -/

theorem mkSection_nonWs (uri name h : Str) (ls : List Str) :
    ((mkSection uri name h ls).map fun s => nonWs s.content).flatten
      = (ls.map nonWs).flatten := by
  simp only [mkSection]
  by_cases he : (rustTrim (joinNL ls)).isEmpty
  · rw [if_pos he]
    have h0 : rustTrim (joinNL ls) = [] := List.isEmpty_iff.mp he
    have h1 : nonWs (joinNL ls) = [] := (rustTrim_eq_nil_iff _).mp h0
    rw [nonWs_joinNL] at h1
    simp [h1.symm]
  · rw [if_neg he]
    simp only [List.map_cons, List.map_nil, List.flatten_cons, List.flatten_nil,
      List.append_nil]
    rw [nonWs_rustTrim, nonWs_joinNL]

theorem parseLoop_nonWs (uri name : Str) (ls : List Str) :
    ∀ (h : Str) (acc : List Str),
      ((parseLoop uri name ls h acc).map fun s => nonWs s.content).flatten
        = (acc.map nonWs).flatten ++ (ls.map nonWs).flatten := by
  induction ls with
  | nil =>
    intro h acc
    simp only [parseLoop, List.map_nil, List.flatten_nil, List.append_nil]
    by_cases ha : acc.isEmpty
    · rw [if_pos ha, List.isEmpty_iff.mp ha]
      simp
    · rw [if_neg ha]
      exact mkSection_nonWs uri name h acc
  | cons line rest ih =>
    intro h acc
    by_cases hl : h2marker.isPrefixOf line
    · simp only [parseLoop, hl, if_pos, List.map_append, List.flatten_append]
      rw [ih]
      have hflush :
          (((if !h.isEmpty || !acc.isEmpty then mkSection uri name h acc else []).map
            fun s => nonWs s.content).flatten) = (acc.map nonWs).flatten := by
        by_cases hc : (!h.isEmpty || !acc.isEmpty) = true
        · rw [if_pos hc]
          exact mkSection_nonWs uri name h acc
        · rw [if_neg hc]
          have : acc.isEmpty := by
            cases hacc : acc.isEmpty with
            | true => rfl
            | false => simp [hacc] at hc
          rw [List.isEmpty_iff.mp this]
          simp
      rw [hflush]
      simp
    · simp only [parseLoop, hl, if_neg, Bool.false_eq_true, if_false]
      rw [ih]
      simp [List.filter_append, nonWs]

/-- When no line is a `"## "` heading line, the loop accumulates every
line into one final flush. -/
theorem parseLoop_no_heading (uri name : Str) (ls : List Str)
    (hnh : ∀ l ∈ ls, ¬(h2marker.isPrefixOf l = true)) :
    ∀ (h : Str) (acc : List Str),
      parseLoop uri name ls h acc
        = if (acc ++ ls).isEmpty then [] else mkSection uri name h (acc ++ ls) := by
  induction ls with
  | nil =>
    intro h acc
    simp [parseLoop]
  | cons line rest ih =>
    intro h acc
    have hline : ¬(h2marker.isPrefixOf line = true) := hnh line (List.mem_cons_self ..)
    have hrest : ∀ l ∈ rest, ¬(h2marker.isPrefixOf l = true) := fun l hl =>
      hnh l (List.mem_cons_of_mem _ hl)
    simp only [parseLoop, hline, Bool.false_eq_true, if_false]
    rw [ih hrest]
    have happ : (acc ++ [line]) ++ rest = acc ++ line :: rest := by simp
    rw [happ]

/-- A `"## "` heading line starts with two hash characters. -/
theorem heading_shape {l : Str} (h : h2marker.isPrefixOf l = true) :
    ∃ t, l = '#' :: '#' :: ' ' :: t := by
  obtain ⟨t, ht⟩ := List.isPrefixOf_iff_prefix.mp h
  exact ⟨t, ht.symm⟩

theorem heading_nonWs_ne_nil {l : Str} (h : h2marker.isPrefixOf l = true) :
    nonWs l ≠ [] := by
  obtain ⟨t, ht⟩ := heading_shape h
  subst ht
  simp [nonWs, List.filter_cons]

theorem heading_rustTrim_ne_nil {l : Str} (h : h2marker.isPrefixOf l = true) :
    rustTrim l ≠ [] := by
  intro hc
  exact heading_nonWs_ne_nil h ((rustTrim_eq_nil_iff l).mp hc)

/-- Two consecutive heading lines flush a section holding just the
first heading line (trimmed), whatever came before them. -/
theorem parseLoop_consec (uri name l1 l2 : Str) (post : List Str)
    (h1 : h2marker.isPrefixOf l1 = true) (h2 : h2marker.isPrefixOf l2 = true) :
    ∀ (pre : List Str) (h : Str) (acc : List Str),
      (⟨uri, name, l1, rustTrim l1⟩ : Section)
        ∈ parseLoop uri name (pre ++ l1 :: l2 :: post) h acc := by
  intro pre
  induction pre with
  | nil =>
    intro h acc
    simp only [List.nil_append, parseLoop, h1, h2, if_pos]
    apply List.mem_append.mpr
    right
    apply List.mem_append.mpr
    left
    have hne : ¬(l1.isEmpty = true) := by
      obtain ⟨t, ht⟩ := heading_shape h1
      subst ht
      simp
    have hcond : (!l1.isEmpty || !(List.isEmpty [l1])) = true := by
      simp [hne]
    rw [if_pos hcond]
    simp only [mkSection]
    have hht : joinNL [l1] = l1 := rfl
    rw [hht]
    rw [if_neg hne]
    have hti : ¬((rustTrim l1).isEmpty = true) := by
      rw [List.isEmpty_iff]
      exact heading_rustTrim_ne_nil h1
    rw [if_neg hti]
    exact List.mem_singleton.mpr rfl
  | cons p pre ih =>
    intro h acc
    by_cases hp : h2marker.isPrefixOf p
    · simp only [List.cons_append, parseLoop, hp, if_pos]
      exact List.mem_append.mpr (Or.inr (ih p [p]))
    · simp only [List.cons_append, parseLoop, hp, Bool.false_eq_true, if_false]
      exact ih h (acc ++ [p])

/-! ### Sorting lemmas -/

open List

instance : IsTotal (Nat × Section) (fun a b => b.1 ≤ a.1) :=
  ⟨fun a b => Nat.le_total b.1 a.1⟩

instance : IsTrans (Nat × Section) (fun a b => b.1 ≤ a.1) :=
  ⟨fun _ _ _ h1 h2 => le_trans h2 h1⟩

theorem sortByScoreDesc_perm (l : List (Nat × Section)) : sortByScoreDesc l ~ l :=
  List.perm_insertionSort _ l

theorem sortByScoreDesc_sorted (l : List (Nat × Section)) :
    (sortByScoreDesc l).Sorted fun a b => b.1 ≤ a.1 :=
  List.sorted_insertionSort _ l

/-- Stability of the score-descending sort: for each score value, the
sublist of entries carrying that score is unchanged by sorting. -/
theorem filter_sortByScoreDesc (l : List (Nat × Section)) (c : Nat) :
    (sortByScoreDesc l).filter (fun p => p.1 == c) = l.filter (fun p => p.1 == c) := by
  have hpw : (l.filter (fun p => p.1 == c)).Pairwise fun a b => b.1 ≤ a.1 := by
    apply List.pairwise_of_forall_mem_list
    intro a ha b hb
    have ha' : a.1 = c := by simpa using List.of_mem_filter ha
    have hb' : b.1 = c := by simpa using List.of_mem_filter hb
    rw [ha', hb']
  have hsub : l.filter (fun p => p.1 == c) <+ sortByScoreDesc l :=
    List.sublist_insertionSort hpw (List.filter_sublist l)
  have hself : (l.filter (fun p => p.1 == c)).filter (fun p => p.1 == c)
      = l.filter (fun p => p.1 == c) := by
    apply List.filter_eq_self.mpr
    intro a ha
    exact (List.mem_filter.mp ha).2
  have hsub2 : l.filter (fun p => p.1 == c) <+ (sortByScoreDesc l).filter (fun p => p.1 == c) := by
    rw [← hself]
    exact List.Sublist.filter _ hsub
  have hlen : ((sortByScoreDesc l).filter (fun p => p.1 == c)).length
      = (l.filter (fun p => p.1 == c)).length :=
    ((sortByScoreDesc_perm l).filter _).length_eq
  exact (hsub2.eq_of_length hlen.symm).symm

/-- A truncated prefix preserves the per-score sublists as prefixes. -/
theorem take_filter_isPrefix (l : List (Nat × Section)) (n : Nat) (p : Nat × Section → Bool) :
    (l.take n).filter p <+: l.filter p :=
  List.IsPrefix.filter p (List.take_prefix n l)

/-! ### Substring-containment lemmas for the rendered messages -/

theorem isInfix_extend_right {x t : Str} (l : Str) (h : x <:+: t) : x <:+: l ++ t := by
  obtain ⟨s, u, hsu⟩ := h
  exact ⟨l ++ s, u, by rw [← hsu]; simp⟩

theorem isInfix_extend_left {x l : Str} (t : Str) (h : x <:+: l) : x <:+: l ++ t := by
  obtain ⟨s, u, hsu⟩ := h
  exact ⟨s, u ++ t, by rw [← hsu]; simp⟩

theorem mem_isInfix_joinNL {x : Str} : ∀ {ls : List Str}, x ∈ ls → x <:+: joinNL ls := by
  intro ls
  induction ls with
  | nil => intro h; cases h
  | cons l ls ih =>
    intro h
    rcases List.mem_cons.mp h with he | hm
    · subst he
      cases ls with
      | nil => exact List.infix_rfl
      | cons l' ls' => exact isInfix_extend_left _ List.infix_rfl
    · cases ls with
      | nil => cases hm
      | cons l' ls' =>
        have h1 : x <:+: joinNL (l' :: ls') := ih hm
        have h2 : joinNL (l :: l' :: ls') = (l ++ ['\n']) ++ joinNL (l' :: ls') := by
          simp [joinNL]
        rw [h2]
        exact isInfix_extend_right _ h1

theorem mem_isInfix_joinBlank {x : Str} : ∀ {ls : List Str}, x ∈ ls → x <:+: joinBlank ls := by
  intro ls
  induction ls with
  | nil => intro h; cases h
  | cons l ls ih =>
    intro h
    rcases List.mem_cons.mp h with he | hm
    · subst he
      cases ls with
      | nil => exact List.infix_rfl
      | cons l' ls' => exact isInfix_extend_left _ List.infix_rfl
    · cases ls with
      | nil => cases hm
      | cons l' ls' =>
        have h1 : x <:+: joinBlank (l' :: ls') := ih hm
        have h2 : joinBlank (l :: l' :: ls') = (l ++ ['\n', '\n']) ++ joinBlank (l' :: ls') := by
          simp [joinBlank]
        rw [h2]
        exact isInfix_extend_right _ h1

theorem mem_isInfix_flatten {x : Str} : ∀ {ls : List Str}, x ∈ ls → x <:+: ls.flatten := by
  intro ls
  induction ls with
  | nil => intro h; cases h
  | cons l ls ih =>
    intro h
    rcases List.mem_cons.mp h with he | hm
    · subst he
      rw [List.flatten_cons]
      exact isInfix_extend_left _ List.infix_rfl
    · rw [List.flatten_cons]
      exact isInfix_extend_right _ (ih hm)

/-- The middle piece of an `a ++ x ++ b` concatenation is a substring. -/
theorem isInfix_middle (a x b : Str) : x <:+: a ++ x ++ b := ⟨a, b, rfl⟩

theorem uri_isInfix_lookupNoMatchMsg {srv : AlloyMcpServer} {r : StaticResource}
    (hr : r ∈ srv.resources) (type_name : Str) :
    r.uri <:+: lookupNoMatchMsg srv type_name := by
  unfold lookupNoMatchMsg
  have hentry : "  - ".toList ++ r.uri ++ " (".toList ++ r.name ++ ")".toList
      ∈ srv.resources.map fun x =>
        "  - ".toList ++ x.uri ++ " (".toList ++ x.name ++ ")".toList :=
    List.mem_map_of_mem _ hr
  have h1 : r.uri <:+: "  - ".toList ++ r.uri ++ " (".toList ++ r.name ++ ")".toList := by
    have := isInfix_middle "  - ".toList r.uri (" (".toList ++ r.name ++ ")".toList)
    simpa using this
  have h2 := (h1.trans (mem_isInfix_joinNL hentry))
  exact isInfix_extend_right _ h2

theorem uri_isInfix_searchNoResultsMsg {srv : AlloyMcpServer} {r : StaticResource}
    (hr : r ∈ srv.resources) (query : Str) :
    r.uri <:+: searchNoResultsMsg srv query
      ∧ r.description <:+: searchNoResultsMsg srv query := by
  unfold searchNoResultsMsg
  have hentry : "  - ".toList ++ r.uri ++ " — ".toList ++ r.description
      ∈ srv.resources.map fun x => "  - ".toList ++ x.uri ++ " — ".toList ++ x.description :=
    List.mem_map_of_mem _ hr
  constructor
  · have h1 : r.uri <:+: "  - ".toList ++ r.uri ++ " — ".toList ++ r.description := by
      have := isInfix_middle "  - ".toList r.uri (" — ".toList ++ r.description)
      simpa using this
    exact isInfix_extend_right _ (h1.trans (mem_isInfix_joinNL hentry))
  · have h1 : r.description <:+: "  - ".toList ++ r.uri ++ " — ".toList ++ r.description := by
      have : r.description <:+: ("  - ".toList ++ r.uri ++ " — ".toList) ++ r.description ++ [] :=
        isInfix_middle _ _ _
      simpa using this
    exact isInfix_extend_right _ (h1.trans (mem_isInfix_joinNL hentry))

theorem uri_isInfix_resourceNotFoundMsg {srv : AlloyMcpServer} {r : StaticResource}
    (hr : r ∈ srv.resources) (uri : Str) :
    r.uri <:+: resourceNotFoundMsg srv uri ∧ r.name <:+: resourceNotFoundMsg srv uri := by
  unfold resourceNotFoundMsg
  have hentry : "  ".toList ++ r.uri ++ " — ".toList ++ r.name
      ∈ srv.resources.map fun x => "  ".toList ++ x.uri ++ " — ".toList ++ x.name :=
    List.mem_map_of_mem _ hr
  constructor
  · have h1 : r.uri <:+: "  ".toList ++ r.uri ++ " — ".toList ++ r.name := by
      have := isInfix_middle "  ".toList r.uri (" — ".toList ++ r.name)
      simpa using this
    exact isInfix_extend_right _ (h1.trans (mem_isInfix_joinNL hentry))
  · have h1 : r.name <:+: "  ".toList ++ r.uri ++ " — ".toList ++ r.name := by
      have : r.name <:+: ("  ".toList ++ r.uri ++ " — ".toList) ++ r.name ++ [] :=
        isInfix_middle _ _ _
      simpa using this
    exact isInfix_extend_right _ (h1.trans (mem_isInfix_joinNL hentry))

/-! ### Pipeline lemmas -/

theorem mem_lookup_scored {srv : AlloyMcpServer} {q : Str} {p : Nat × Section}
    (hp : p ∈ lookup_scored srv q) :
    0 < p.1 ∧ p.2 ∈ all_sections srv ∧ p.1 = score_section p.2 q := by
  unfold lookup_scored at hp
  obtain ⟨s, hs, hf⟩ := List.mem_filterMap.mp hp
  by_cases h : score_section s q > 0
  · rw [if_pos h] at hf
    obtain rfl := Option.some_injective _ hf
    exact ⟨h, hs, rfl⟩
  · rw [if_neg h] at hf
    cases hf

theorem lookup_scored_eq_nil {srv : AlloyMcpServer} {q : Str}
    (h : ∀ s ∈ all_sections srv, score_section s q = 0) :
    lookup_scored srv q = [] := by
  unfold lookup_scored
  apply List.filterMap_eq_nil_iff.mpr
  intro s hs
  simp [h s hs]

theorem lookup_results_eq_nil {srv : AlloyMcpServer} {q : Str}
    (h : lookup_scored srv q = []) : lookup_results srv q = [] := by
  unfold lookup_results
  rw [h]
  rfl

theorem lookup_type_eq_noMatch {srv : AlloyMcpServer} {q : Str}
    (h : lookup_results srv q = []) :
    lookup_type srv q = lookupNoMatchMsg srv q := by
  unfold lookup_type
  rw [h]
  rfl

theorem mem_search_scored {srv : AlloyMcpServer} {q : Str} {p : Nat × Section}
    (hp : p ∈ search_scored srv q) :
    0 < p.1 ∧ p.2 ∈ all_sections srv
      ∧ p.1 = search_total_score (queryTerms q) q p.2 := by
  unfold search_scored at hp
  obtain ⟨s, hs, hf⟩ := List.mem_filterMap.mp hp
  by_cases h : search_total_score (queryTerms q) q s > 0
  · rw [if_pos h] at hf
    obtain rfl := Option.some_injective _ hf
    exact ⟨h, hs, rfl⟩
  · rw [if_neg h] at hf
    cases hf

theorem search_scored_mem_intro {srv : AlloyMcpServer} {q : Str} {s : Section}
    (hs : s ∈ all_sections srv) (hpos : 0 < search_total_score (queryTerms q) q s) :
    (search_total_score (queryTerms q) q s, s) ∈ search_scored srv q := by
  unfold search_scored
  apply List.mem_filterMap.mpr
  refine ⟨s, hs, ?_⟩
  simp only [if_pos hpos]

theorem search_scored_eq_nil {srv : AlloyMcpServer} {q : Str}
    (h : ∀ s ∈ all_sections srv, search_total_score (queryTerms q) q s = 0) :
    search_scored srv q = [] := by
  unfold search_scored
  apply List.filterMap_eq_nil_iff.mpr
  intro s hs
  simp [h s hs]

theorem search_results_eq_nil {srv : AlloyMcpServer} {q : Str} {m : Nat}
    (h : search_scored srv q = []) : search_results srv q m = [] := by
  unfold search_results
  rw [h]
  simp [sortByScoreDesc]

theorem search_resources_eq_noResults {srv : AlloyMcpServer} {q : Str} {mr : Option Nat}
    (h : search_results srv q (mr.getD 5) = []) :
    search_resources srv q mr = searchNoResultsMsg srv q := by
  simp [search_resources, h]

/-- The fold computing the search total score is the base score plus
10 per heading term hit and 5 per body term hit. -/
theorem search_total_score_eq (terms : List Str) (query : Str) (s : Section) :
    search_total_score terms query s
      = score_section s query
        + 10 * terms.countP (fun t => containsSub (lowerStr s.heading) t)
        + 5 * terms.countP (fun t => containsSub (lowerStr s.content) t) := by
  unfold search_total_score
  suffices h : ∀ acc : Nat,
      terms.foldl
        (fun acc term =>
          let acc := if containsSub (lowerStr s.heading) term then acc + 10 else acc
          if containsSub (lowerStr s.content) term then acc + 5 else acc)
        acc
      = acc + 10 * terms.countP (fun t => containsSub (lowerStr s.heading) t)
          + 5 * terms.countP (fun t => containsSub (lowerStr s.content) t) by
    exact h _
  induction terms with
  | nil => intro acc; simp
  | cons t ts ih =>
    intro acc
    rw [List.foldl_cons, ih, List.countP_cons, List.countP_cons]
    by_cases h1 : containsSub (lowerStr s.heading) t
      <;> by_cases h2 : containsSub (lowerStr s.content) t
      <;> simp [h1, h2]
      <;> ring

/-! ### Claim theorems -/

/-- C1: `score_section` evaluates its checks in priority order with the
first match winning, never summing them: a heading containment scores
100 regardless of the body; otherwise a backtick-wrapped body
containment scores 80; otherwise a plain body containment scores 50
plus the number of non-overlapping occurrences capped at 30; otherwise
the score is 0.  Every returned score lies in
{0} ∪ [50,130] ∪ {80,100}. -/
theorem C1_score_section_priority (s : Section) (query : Str) :
    (containsSub (lowerStr s.heading) (lowerStr query) = true →
      score_section s query = 100)
  ∧ (containsSub (lowerStr s.heading) (lowerStr query) = false →
      containsSub (lowerStr s.content) (backtick :: lowerStr query ++ [backtick]) = true →
      score_section s query = 80)
  ∧ (containsSub (lowerStr s.heading) (lowerStr query) = false →
      containsSub (lowerStr s.content) (backtick :: lowerStr query ++ [backtick]) = false →
      containsSub (lowerStr s.content) (lowerStr query) = true →
      score_section s query
        = 50 + min (countMatches (lowerStr s.content) (lowerStr query)) 30)
  ∧ (containsSub (lowerStr s.heading) (lowerStr query) = false →
      containsSub (lowerStr s.content) (backtick :: lowerStr query ++ [backtick]) = false →
      containsSub (lowerStr s.content) (lowerStr query) = false →
      score_section s query = 0)
  ∧ (score_section s query = 0
      ∨ (50 ≤ score_section s query ∧ score_section s query ≤ 130)
      ∨ score_section s query = 80 ∨ score_section s query = 100) := by
  refine ⟨?_, ?_, ?_, ?_, ?_⟩
  · intro h1
    simp [score_section, h1]
  · intro h1 h2
    rw [List.cons_append] at h2
    simp [score_section, h1, h2]
  · intro h1 h2 h3
    rw [List.cons_append] at h2
    simp [score_section, h1, h2, h3]
  · intro h1 h2 h3
    rw [List.cons_append] at h2
    simp [score_section, h1, h2, h3]
  · by_cases h1 : containsSub (lowerStr s.heading) (lowerStr query) = true
    · right; right; right
      simp [score_section, h1]
    · rw [Bool.not_eq_true] at h1
      by_cases h2 :
          containsSub (lowerStr s.content) (backtick :: (lowerStr query ++ [backtick])) = true
      · right; right; left
        simp [score_section, h1, h2]
      · rw [Bool.not_eq_true] at h2
        by_cases h3 : containsSub (lowerStr s.content) (lowerStr query) = true
        · right; left
          have hmin : min (countMatches (lowerStr s.content) (lowerStr query)) 30 ≤ 30 :=
            Nat.min_le_right ..
          have hsc : score_section s query
              = 50 + min (countMatches (lowerStr s.content) (lowerStr query)) 30 := by
            simp [score_section, h1, h2, h3]
          omega
        · rw [Bool.not_eq_true] at h3
          left
          simp [score_section, h1, h2, h3]

/-- C1 witness: a concrete heading match scores 100. -/
theorem C1_witness :
    containsSub (lowerStr demoAlphaSec.heading) (lowerStr "alpha".toList) = true
      ∧ score_section demoAlphaSec "alpha".toList = 100 :=
  ⟨by decide, (C1_score_section_priority demoAlphaSec "alpha".toList).1 (by decide)⟩

/-- C5: parser completeness — concatenating the body texts of all
returned Sections reconstructs the original document up to discarded
whitespace: the non-whitespace character sequence is preserved exactly
(trimming and the discarding of whitespace-only sections only ever
remove whitespace). -/
theorem C5_parser_completeness (uri name content : Str) :
    nonWs (((parse_sections uri name content).map fun s => s.content).flatten)
      = nonWs content := by
  unfold nonWs
  rw [List.filter_flatten, List.map_map]
  have hmm : (List.map ((fun l => List.filter (fun c => !c.isWhitespace) l) ∘ fun s => s.content)
      (parse_sections uri name content))
      = (parse_sections uri name content).map fun s => nonWs s.content := rfl
  rw [hmm]
  have := parseLoop_nonWs uri name (rustLines content) [] []
  unfold parse_sections
  rw [this]
  simp only [List.map_nil, List.flatten_nil, List.nil_append]
  exact nonWs_flatten_rustLines content

/-- C2: the search total score is the base `score_section` score of the
whole query plus 10 per whitespace-separated lower-cased term contained
in the heading and 5 per term contained in the body, accumulated
independently of the base score's short-circuit; sections with positive
total score are kept, sorted descending by total score, truncated to
`max_results`; and a concrete section is kept in the search results
with a positive total score even though its base score is 0. -/
theorem C2_search_scoring (srv : AlloyMcpServer) (query : Str) (max : Nat) :
    (∀ s : Section,
        search_total_score (queryTerms query) query s
          = score_section s query
            + 10 * (queryTerms query).countP (fun t => containsSub (lowerStr s.heading) t)
            + 5 * (queryTerms query).countP (fun t => containsSub (lowerStr s.content) t))
  ∧ (∀ s ∈ all_sections srv, 0 < search_total_score (queryTerms query) query s →
        (search_total_score (queryTerms query) query s, s) ∈ search_scored srv query)
  ∧ (∀ p ∈ search_results srv query max, 0 < p.1)
  ∧ (search_results srv query max).Sorted (fun a b => b.1 ≤ a.1)
  ∧ (search_results srv query max).length ≤ max
  ∧ (score_section demoAlphaSec "foo zzz".toList = 0
      ∧ 0 < search_total_score (queryTerms "foo zzz".toList) "foo zzz".toList demoAlphaSec
      ∧ (search_total_score (queryTerms "foo zzz".toList) "foo zzz".toList demoAlphaSec,
          demoAlphaSec) ∈ search_results demoServer "foo zzz".toList 5) := by
  refine ⟨?_, ?_, ?_, ?_, ?_, ?_⟩
  · intro s
    exact search_total_score_eq (queryTerms query) query s
  · intro s hs hpos
    exact search_scored_mem_intro hs hpos
  · intro p hp
    have h1 : p ∈ sortByScoreDesc (search_scored srv query) := List.mem_of_mem_take hp
    exact (mem_search_scored ((sortByScoreDesc_perm _).mem_iff.mp h1)).1
  · exact (sortByScoreDesc_sorted _).sublist (List.take_sublist ..)
  · exact List.length_take_le ..
  · exact ⟨by decide, by decide, by decide⟩

/-- C2 witness: a concrete section with a positive total score enters
the scored list. -/
theorem C2_witness :
    demoAlphaSec ∈ all_sections demoServer
      ∧ (search_total_score (queryTerms "foo".toList) "foo".toList demoAlphaSec, demoAlphaSec)
          ∈ search_scored demoServer "foo".toList :=
  ⟨by decide,
    (C2_search_scoring demoServer "foo".toList 5).2.1 demoAlphaSec (by decide) (by decide)⟩

/-- C3: type lookup keeps only sections with positive score, sorts them
descending by score, and returns at most the top 3; the sort is stable,
so for any score value the returned entries with that score form a
prefix of the corpus-order list of equally scored entries — equal
scores are tie-broken by original section order. -/
theorem C3_lookup_ranking (srv : AlloyMcpServer) (type_name : Str) :
    (∀ p ∈ lookup_results srv type_name, 0 < p.1)
  ∧ (lookup_results srv type_name).Sorted (fun a b => b.1 ≤ a.1)
  ∧ (lookup_results srv type_name).length ≤ 3
  ∧ (∀ c : Nat, (lookup_results srv type_name).filter (fun p => p.1 == c)
      <+: (lookup_scored srv type_name).filter (fun p => p.1 == c)) := by
  refine ⟨?_, ?_, ?_, ?_⟩
  · intro p hp
    have h1 : p ∈ sortByScoreDesc (lookup_scored srv type_name) := List.mem_of_mem_take hp
    exact (mem_lookup_scored ((sortByScoreDesc_perm _).mem_iff.mp h1)).1
  · exact (sortByScoreDesc_sorted _).sublist (List.take_sublist ..)
  · exact List.length_take_le ..
  · intro c
    have h1 := take_filter_isPrefix (sortByScoreDesc (lookup_scored srv type_name)) 3
      (fun p => p.1 == c)
    rwa [filter_sortByScoreDesc] at h1

/-- C3 witness: a concrete section scoring 100 is returned with a
positive score. -/
theorem C3_witness :
    (100, demoAlphaSec) ∈ lookup_results demoServer "alpha".toList
      ∧ 0 < ((100, demoAlphaSec) : Nat × Section).1 :=
  ⟨by decide, (C3_lookup_ranking demoServer "alpha".toList).1 (100, demoAlphaSec) (by decide)⟩

/-- C4 (amended): the section parser is total and: (a) a document with
no `"## "` heading line and non-empty trimmed text yields exactly one
Section with heading `"(intro)"` spanning the whole (line-split,
re-joined, trimmed) body; (b) an empty or whitespace-only document
yields zero Sections; (c) for two consecutive heading lines with no
body between them, the first yields a Section whose body is the first
heading line trimmed of surrounding whitespace — equal to the heading
line itself whenever that line has no trailing whitespace — which
starts with `"##"` and is hence non-empty and retained. -/
theorem C4_parser_edge_cases :
    (∀ uri name content, (∀ l ∈ rustLines content, ¬(h2marker.isPrefixOf l = true)) →
      rustTrim content ≠ [] →
      parse_sections uri name content
        = [⟨uri, name, "(intro)".toList, rustTrim (joinNL (rustLines content))⟩])
  ∧ (∀ uri name content, rustTrim content = [] → parse_sections uri name content = [])
  ∧ (∀ uri name content pre l1 l2 post,
      rustLines content = pre ++ l1 :: l2 :: post →
      h2marker.isPrefixOf l1 = true → h2marker.isPrefixOf l2 = true →
      (⟨uri, name, l1, rustTrim l1⟩ : Section) ∈ parse_sections uri name content) := by
  refine ⟨?_, ?_, ?_⟩
  · intro uri name content hnh hne
    unfold parse_sections
    rw [parseLoop_no_heading uri name _ hnh [] []]
    simp only [List.nil_append]
    have hlne : ¬((rustLines content).isEmpty = true) := by
      rw [List.isEmpty_iff]
      intro hq
      apply hne
      rw [rustTrim_eq_nil_iff]
      have hfl := nonWs_flatten_rustLines content
      rw [hq] at hfl
      simpa using hfl.symm
    rw [if_neg hlne]
    simp only [mkSection]
    have htext : ¬((rustTrim (joinNL (rustLines content))).isEmpty = true) := by
      rw [List.isEmpty_iff, rustTrim_eq_nil_iff, nonWs_joinNL, nonWs_flatten_rustLines]
      intro hc
      exact hne ((rustTrim_eq_nil_iff content).mpr hc)
    rw [if_neg htext]
    simp
  · intro uri name content htrim
    have hnws : nonWs content = [] := (rustTrim_eq_nil_iff content).mp htrim
    have hall : ∀ l ∈ rustLines content, nonWs l = [] := by
      intro l hl
      have hfl := nonWs_flatten_rustLines content
      rw [hnws] at hfl
      exact List.flatten_eq_nil_iff.mp hfl _ (List.mem_map_of_mem _ hl)
    have hnh : ∀ l ∈ rustLines content, ¬(h2marker.isPrefixOf l = true) := by
      intro l hl hpre
      exact heading_nonWs_ne_nil hpre (hall l hl)
    unfold parse_sections
    rw [parseLoop_no_heading uri name _ hnh [] []]
    simp only [List.nil_append]
    by_cases hle : (rustLines content).isEmpty = true
    · rw [if_pos hle]
    · rw [if_neg hle]
      simp only [mkSection]
      have htext : (rustTrim (joinNL (rustLines content))).isEmpty = true := by
        rw [List.isEmpty_iff, rustTrim_eq_nil_iff, nonWs_joinNL, nonWs_flatten_rustLines]
        exact hnws
      rw [if_pos htext]
  · intro uri name content pre l1 l2 post hlines hp1 hp2
    unfold parse_sections
    rw [hlines]
    exact parseLoop_consec uri name l1 l2 post hp1 hp2 pre [] []

/-- C4 counterexample: with the consecutive heading lines `"## A "`
(trailing space) and `"## B"`, the first flushed Section's body is the
trimmed heading `"## A"`, not the heading line `"## A "` itself — so
"the body is just that heading line itself" fails as stated. -/
theorem C4_counterexample :
    (parse_sections "u".toList "n".toList demoConsecDoc).head?
        = some ⟨"u".toList, "n".toList, "## A ".toList, "## A".toList⟩
      ∧ ¬("## A".toList = "## A ".toList) := by
  constructor
  · decide
  · decide

/-- C4 witness: part (a) applied to a concrete headingless document. -/
theorem C4_witness :
    parse_sections "u".toList "n".toList "hello\nworld".toList
      = [⟨"u".toList, "n".toList, "(intro)".toList,
          rustTrim (joinNL (rustLines "hello\nworld".toList))⟩] :=
  C4_parser_edge_cases.1 "u".toList "n".toList "hello\nworld".toList (by decide) (by decide)

/-! ### Repository lookup lemmas -/

theorem find?_uri_eq {uri : Str} {r : StaticResource} :
    ∀ {l : List StaticResource}, (l.map fun x => x.uri).Nodup → r ∈ l → r.uri = uri →
      l.find? (fun x => x.uri == uri) = some r := by
  intro l
  induction l with
  | nil =>
    intro _ hr
    cases hr
  | cons a t ih =>
    intro hnd hr hu
    rw [List.map_cons, List.nodup_cons] at hnd
    rcases List.mem_cons.mp hr with he | hm
    · subst he
      have hp : (r.uri == uri) = true := by simp [hu]
      exact List.find?_cons_of_pos (p := fun x => x.uri == uri) t hp
    · by_cases ha : (a.uri == uri) = true
      · exfalso
        have hau : a.uri = uri := by simpa using ha
        apply hnd.1
        rw [hau, ← hu]
        exact List.mem_map_of_mem _ hm
      · rw [List.find?_cons_of_neg _ (by simpa using ha)]
        exact ih hnd.2 hm hu

theorem get_resource_eq_notFound {srv : AlloyMcpServer} {uri : Str}
    (hne : ¬(uri = "list".toList)) (hnone : ∀ r ∈ srv.resources, r.uri ≠ uri) :
    get_resource srv uri = resourceNotFoundMsg srv uri := by
  unfold get_resource
  rw [if_neg hne]
  have hq : srv.resources.find? (fun x => x.uri == uri) = none := by
    apply List.find?_eq_none.mpr
    intro x hx
    simp [hnone x hx]
  rw [hq]

theorem sortStrs_perm (l : List Str) : List.Perm (sortStrs l) l :=
  List.perm_insertionSort _ l

theorem sortStrs_sorted (l : List Str) : (sortStrs l).Sorted (· ≤ ·) :=
  List.sorted_insertionSort _ l

/-- C6: `get_resource` is a three-way case split — the sentinel
`"list"` returns the catalog of all entries (one rendered block per
document, sorted by the rendered entry string); a URI matching an
entry returns that entry's raw content verbatim; any other URI returns
a not-found message that names every entry's URI and name. -/
theorem C6_get_resource_cases (srv : AlloyMcpServer) (uri : Str) :
    (get_resource srv "list".toList = catalogMsg srv
      ∧ List.Perm (sortStrs (srv.resources.map renderCatalogEntry))
          (srv.resources.map renderCatalogEntry)
      ∧ (sortStrs (srv.resources.map renderCatalogEntry)).Sorted (· ≤ ·)
      ∧ (sortStrs (srv.resources.map renderCatalogEntry)).length = srv.resources.length)
  ∧ (∀ r ∈ srv.resources, r.uri = uri → ¬(uri = "list".toList) →
      (srv.resources.map fun x => x.uri).Nodup →
      get_resource srv uri = r.content)
  ∧ (¬(uri = "list".toList) → (∀ r ∈ srv.resources, r.uri ≠ uri) →
      get_resource srv uri = resourceNotFoundMsg srv uri
        ∧ ∀ r ∈ srv.resources,
            r.uri <:+: get_resource srv uri ∧ r.name <:+: get_resource srv uri) := by
  refine ⟨⟨?_, ?_, ?_, ?_⟩, ?_, ?_⟩
  · unfold get_resource
    rw [if_pos rfl]
  · exact sortStrs_perm _
  · exact sortStrs_sorted _
  · rw [(sortStrs_perm _).length_eq, List.length_map]
  · intro r hr hu hne hnd
    unfold get_resource
    rw [if_neg hne, find?_uri_eq hnd hr hu]
  · intro hne hnone
    have hmsg := get_resource_eq_notFound hne hnone
    refine ⟨hmsg, ?_⟩
    intro r hr
    rw [hmsg]
    exact uri_isInfix_resourceNotFoundMsg hr uri

/-- C6 witness: a known URI returns the raw content; an unknown URI
returns the not-found message. -/
theorem C6_witness :
    get_resource demoServer "alloy://a/one".toList = demoRes1.content
      ∧ get_resource demoServer "alloy://zzz".toList
          = resourceNotFoundMsg demoServer "alloy://zzz".toList :=
  ⟨(C6_get_resource_cases demoServer "alloy://a/one".toList).2.1 demoRes1 (by decide)
      (by decide) (by decide) (by decide),
    ((C6_get_resource_cases demoServer "alloy://zzz".toList).2.2 (by decide) (by decide)).1⟩

/-- C7: the three core operations are total functions producing text
(they are plain Lean functions, so they cannot raise), and whenever the
input matches nothing — no section scores above zero for the query, or
the URI is unknown — the returned text contains every catalog URI. -/
theorem C7_fallback_totality :
    (∀ (srv : AlloyMcpServer) (type_name : Str),
        (∀ s ∈ all_sections srv, score_section s type_name = 0) →
        ∀ r ∈ srv.resources, r.uri <:+: lookup_type srv type_name)
  ∧ (∀ (srv : AlloyMcpServer) (query : Str) (max_results : Option Nat),
        (∀ s ∈ all_sections srv, search_total_score (queryTerms query) query s = 0) →
        ∀ r ∈ srv.resources, r.uri <:+: search_resources srv query max_results)
  ∧ (∀ (srv : AlloyMcpServer) (uri : Str), ¬(uri = "list".toList) →
        (∀ r ∈ srv.resources, r.uri ≠ uri) →
        ∀ r ∈ srv.resources, r.uri <:+: get_resource srv uri) := by
  refine ⟨?_, ?_, ?_⟩
  · intro srv tn h r hr
    rw [lookup_type_eq_noMatch (lookup_results_eq_nil (lookup_scored_eq_nil h))]
    exact uri_isInfix_lookupNoMatchMsg hr tn
  · intro srv q mr h r hr
    rw [search_resources_eq_noResults (search_results_eq_nil (search_scored_eq_nil h))]
    exact (uri_isInfix_searchNoResultsMsg hr q).1
  · intro srv uri hne hnone r hr
    rw [get_resource_eq_notFound hne hnone]
    exact (uri_isInfix_resourceNotFoundMsg hr uri).1

/-- C7 witness: a query matching nothing still yields a message holding
the catalog URI. -/
theorem C7_witness :
    (∀ s ∈ all_sections demoServer, score_section s "zzzz".toList = 0)
      ∧ demoRes1.uri <:+: lookup_type demoServer "zzzz".toList :=
  ⟨by decide, C7_fallback_totality.1 demoServer "zzzz".toList (by decide) demoRes1 (by decide)⟩

/-- C8: in the search output, a matched section whose body has more
than 40 lines is shown as exactly its first 40 lines plus a trailer
carrying the count of remaining lines and the resource URI; a body of
at most 40 lines is shown in full; and every matched section's rendered
entry appears in the output text. -/
theorem C8_search_preview (s : Section) :
    (40 < (rustLines s.content).length →
      searchPreview s
        = joinNL ((rustLines s.content).take 40) ++ "\n\n... (".toList
            ++ natStr ((rustLines s.content).length - 40)
            ++ " more lines, fetch full resource: ".toList ++ s.uri ++ ")".toList)
  ∧ ((rustLines s.content).length ≤ 40 → searchPreview s = s.content)
  ∧ (∀ (srv : AlloyMcpServer) (query : Str) (mr : Option Nat) (p : Nat × Section),
      p ∈ search_results srv query (mr.getD 5) →
      renderSearchEntry p.2 <:+: search_resources srv query mr) := by
  refine ⟨?_, ?_, ?_⟩
  · intro h
    simp only [searchPreview]
    rw [if_pos h]
  · intro h
    simp only [searchPreview]
    rw [if_neg (Nat.not_lt.mpr h)]
  · intro srv query mr p hp
    simp only [search_resources]
    have hne : (search_results srv query (mr.getD 5)).isEmpty = false := by
      cases hq : search_results srv query (mr.getD 5) with
      | nil =>
        rw [hq] at hp
        cases hp
      | cons a t => rfl
    simp only [hne, Bool.false_eq_true, if_false]
    have hmem : renderSearchEntry p.2
        ∈ (search_results srv query (mr.getD 5)).map fun p => renderSearchEntry p.2 :=
      List.mem_map_of_mem _ hp
    exact isInfix_extend_right _ (mem_isInfix_flatten hmem)

/-- C8 witness: a concrete 41-line body is truncated to 40 lines plus
the trailer. -/
theorem C8_witness :
    40 < (rustLines demoLongSec.content).length
      ∧ searchPreview demoLongSec
          = joinNL ((rustLines demoLongSec.content).take 40) ++ "\n\n... (".toList
              ++ natStr ((rustLines demoLongSec.content).length - 40)
              ++ " more lines, fetch full resource: ".toList ++ demoLongSec.uri ++ ")".toList :=
  ⟨by decide, (C8_search_preview demoLongSec).1 (by decide)⟩

/-- C9: the structured single-resource read returns the entry's text
content exactly when the identifier has a catalog entry, and otherwise
returns a distinguishable resource-not-found error value rather than
guidance text; the operation is a pure function of the server state,
which it never modifies. -/
theorem C9_read_resource (srv : AlloyMcpServer) (uri : Str) :
    ((∃ res, read_resource srv uri = Except.ok res) ↔ ∃ r ∈ srv.resources, r.uri = uri)
  ∧ (∀ r ∈ srv.resources, r.uri = uri → (srv.resources.map fun x => x.uri).Nodup →
      read_resource srv uri = Except.ok ⟨[⟨r.uri, r.mime_type, r.content⟩]⟩)
  ∧ ((∀ r ∈ srv.resources, r.uri ≠ uri) →
      read_resource srv uri
        = Except.error ⟨-32002, "Resource not found: ".toList ++ uri⟩) := by
  refine ⟨?_, ?_, ?_⟩
  · constructor
    · rintro ⟨res, hres⟩
      unfold read_resource at hres
      cases hq : srv.resources.find? (fun x => x.uri == uri) with
      | none =>
        rw [hq] at hres
        exact Except.noConfusion hres
      | some x =>
        rw [hq] at hres
        refine ⟨x, List.mem_of_find?_eq_some hq, ?_⟩
        simpa using List.find?_some hq
    · rintro ⟨r, hr, hu⟩
      unfold read_resource
      cases hq : srv.resources.find? (fun x => x.uri == uri) with
      | none =>
        exfalso
        have := List.find?_eq_none.mp hq r hr
        simp [hu] at this
      | some x => exact ⟨_, rfl⟩
  · intro r hr hu hnd
    unfold read_resource
    rw [find?_uri_eq hnd hr hu]
  · intro h
    unfold read_resource
    have hq : srv.resources.find? (fun x => x.uri == uri) = none := by
      apply List.find?_eq_none.mpr
      intro x hx
      simp [h x hx]
    rw [hq]

/-- C9 witness: reading a present URI returns its content; the demo
catalog has distinct URIs. -/
theorem C9_witness :
    (demoServer.resources.map fun x => x.uri).Nodup
      ∧ read_resource demoServer "alloy://a/one".toList
          = Except.ok ⟨[⟨demoRes1.uri, demoRes1.mime_type, demoRes1.content⟩]⟩ :=
  ⟨by decide, (C9_read_resource demoServer "alloy://a/one".toList).2.1 demoRes1 (by decide)
      (by decide) (by decide)⟩

/-- C10: with `max_results = 0`, search always returns the no-results
fallback message enumerating every entry's URI and description — the
emptiness check runs after truncation — even for a query with matching
sections (the concrete server has a positively scored section for the
query, yet the fallback is returned). -/
theorem C10_search_zero_max (srv : AlloyMcpServer) (query : Str) :
    (search_resources srv query (some 0) = searchNoResultsMsg srv query
      ∧ ∀ r ∈ srv.resources,
          r.uri <:+: search_resources srv query (some 0)
            ∧ r.description <:+: search_resources srv query (some 0))
  ∧ search_scored demoServer "foo".toList ≠ [] := by
  constructor
  · have hmsg : search_resources srv query (some 0) = searchNoResultsMsg srv query := by
      apply search_resources_eq_noResults
      unfold search_results
      exact List.take_zero _
    refine ⟨hmsg, ?_⟩
    intro r hr
    rw [hmsg]
    exact uri_isInfix_searchNoResultsMsg hr query
  · decide

/-- C10 witness: the fallback message for the zero limit holds the demo
catalog URI. -/
theorem C10_witness :
    demoRes1 ∈ demoServer.resources
      ∧ demoRes1.uri <:+: search_resources demoServer "foo".toList (some 0) :=
  ⟨by decide, ((C10_search_zero_max demoServer "foo".toList).1.2 demoRes1 (by decide)).1⟩

end AlloyMcp
